import Mathlib

/-!
# Verification of the openfga-sync core against its specification

Shallow embedding of the parts of the `openfga-sync` repository that the
frozen claims concern: the identity parsers (`fetcher/openfga.go`), the
wire-record parser, the three storage adapters (`storage/postgres.go`,
the SQLite adapter, `storage/openfga.go`) and the sync tick
(`main.go syncChanges`). Machine strings are Lean `String`s; the database
clock (`NOW()` / `CURRENT_TIMESTAMP`) is an explicit `Nat` parameter;
fallible operations return a pair of the resulting state and an optional
error, mirroring Go's `(T, error)` discipline.
-/

namespace OpenFGASync



/-! ## Identity parsers (`fetcher/openfga.go`, `parseUserTypeAndID` / `parseObjectTypeAndID`)

Go's `strings.SplitN(s, ":", 2)` splits at the first colon when one is
present.  We model it on the character list of the string: `splitAtFirst`
returns `some (before, after)` when the separator occurs, `none` otherwise,
exactly the `len(parts) == 2` / `len(parts) == 1` dichotomy of `SplitN`
with limit 2. -/

def splitAtFirst (sep : Char) : List Char → Option (List Char × List Char)
  | [] => none
  | c :: cs =>
    if c = sep then some ([], cs)
    else
      match splitAtFirst sep cs with
      | some (a, b) => some (c :: a, b)
      | none => none

/-- Go's `strings.Contains(s, string(c))` for a one-character needle. -/
def containsChar (sep : Char) (l : List Char) : Bool :=
  l.any (fun c => c = sep)

/-- Embedding of `parseUserTypeAndID` (fetcher/openfga.go:539).
The `#` branch returns the split result whenever a colon exists
(`len(parts) == 2`), without checking that the part before the colon is
non-empty; the plain-colon branch does check `parts[0] != ""`. -/
def parseUserTypeAndID (user : String) : String × String :=
  if user = "" then ("user", "")
  else if containsChar '#' user.data then
    match splitAtFirst ':' user.data with
    | some (p, r) => (String.mk p, String.mk r)
    | none => ("user", user)
  else if containsChar ':' user.data then
    match splitAtFirst ':' user.data with
    | some (p, r) => if p ≠ [] then (String.mk p, String.mk r) else ("user", user)
    | none => ("user", user)
  else ("user", user)

/-- Embedding of `parseObjectTypeAndID` (fetcher/openfga.go:569): no `#`
branch; the colon split is taken only when the part before the colon is
non-empty. -/
def parseObjectTypeAndID (object : String) : String × String :=
  if object = "" then ("object", "")
  else if containsChar ':' object.data then
    match splitAtFirst ':' object.data with
    | some (p, r) => if p ≠ [] then (String.mk p, String.mk r) else ("object", object)
    | none => ("object", object)
  else ("object", object)

/-- The four ordered rules of the spec's `parseQualified` (spec §4.1), to be
compared with the parsers translated from the source.  `hashNeedsNonempty`
selects whether rule 2 (the `#` branch) demands a non-empty part before the
first colon — `true` is the spec's wording, `false` is what the source's
user parser actually does. -/
def specParseQualified (hashNeedsNonempty : Bool) (defaultType s : String) : String × String :=
  if s = "" then (defaultType, "")
  else if containsChar '#' s.data then
    match splitAtFirst ':' s.data with
    | some (p, r) =>
      if hashNeedsNonempty then
        if p ≠ [] then (String.mk p, String.mk r) else (defaultType, s)
      else (String.mk p, String.mk r)
    | none => (defaultType, s)
  else if containsChar ':' s.data then
    match splitAtFirst ':' s.data with
    | some (p, r) => if p ≠ [] then (String.mk p, String.mk r) else (defaultType, s)
    | none => (defaultType, s)
  else (defaultType, s)

/-! ## Change events and operation classification (`fetcher/openfga.go`)

`ChangeEvent` mirrors the Go struct: the parsed flat fields, the legacy
nested `TupleKey`, and the raw `operation` string.  Timestamps are `Nat`
instants; the raw JSON payload is kept as an opaque `String`. -/

structure TupleKey where
  user : String
  userType : String
  userId : String
  relation : String
  object : String
  objectType : String
  objectId : String
  deriving DecidableEq

structure ChangeEvent where
  objectType : String
  objectId : String
  relation : String
  userType : String
  userId : String
  changeType : String
  timestamp : Nat
  condition : String
  rawJson : String
  tupleKey : TupleKey
  operation : String
  deriving DecidableEq

/-- Go's `strings.ToUpper`, restricted to the ASCII range the operation
names live in. -/
def goToUpper (s : String) : String :=
  String.mk (s.data.map Char.toUpper)

/-- The `switch strings.ToUpper(change.Operation)` write arm shared by
`determineChangeType`, the relational `ApplyChanges` loops and the OpenFGA
adapter's `processBatch`. -/
def isWriteOp (op : String) : Bool :=
  goToUpper op = "TUPLE_TO_USERSET_WRITE" || goToUpper op = "WRITE"

/-- The corresponding delete arm. -/
def isDeleteOp (op : String) : Bool :=
  goToUpper op = "TUPLE_TO_USERSET_DELETE" || goToUpper op = "DELETE"

/-- `determineChangeType` (fetcher/openfga.go:507). -/
def determineChangeType (op : String) : String :=
  if isWriteOp op then "tuple_write"
  else if isDeleteOp op then "tuple_delete"
  else "tuple_change"

/-! ## The state-mode tuples table (`fga_tuples`)

A table is a list of rows keyed by the five identity columns (the primary
key).  `created_at` / `updated_at` carry the transaction clock `now`.
The stored `condition` column is NULL when the event's condition string is
empty, mirroring the `if change.Condition != ""` guard of both relational
adapters. -/

abbrev TupleKey5 := String × String × String × String × String

def eventKey (e : ChangeEvent) : TupleKey5 :=
  (e.objectType, e.objectId, e.relation, e.userType, e.userId)

structure TupleRow where
  condition : Option String
  createdAt : Nat
  updatedAt : Nat
  deriving DecidableEq

abbrev TupleTable := List (TupleKey5 × TupleRow)

def condValue (e : ChangeEvent) : Option String :=
  if e.condition = "" then none else some e.condition

def hasKey (tbl : TupleTable) (k : TupleKey5) : Bool :=
  tbl.any fun p => p.1 = k

/-- Postgres upsert (storage/postgres.go:218): `INSERT ... ON CONFLICT
(five key columns) DO UPDATE SET condition = EXCLUDED.condition,
updated_at = NOW()`.  A fresh row receives `created_at = updated_at = NOW()`
from the column defaults; a conflicting row keeps its `created_at` and its
position. -/
def pgUpsert (tbl : TupleTable) (k : TupleKey5) (c : Option String) (now : Nat) : TupleTable :=
  if hasKey tbl k then
    tbl.map fun p => if p.1 = k then (p.1, ⟨c, p.2.createdAt, now⟩) else p
  else tbl ++ [(k, ⟨c, now, now⟩)]

/-- SQLite upsert (SQLiteAdapter.ApplyChanges): `INSERT OR REPLACE` removes
the conflicting row and inserts a replacement, whose `created_at` is carried
over by the `COALESCE((SELECT created_at ...), CURRENT_TIMESTAMP)`
subquery. -/
def sqliteUpsert (tbl : TupleTable) (k : TupleKey5) (c : Option String) (now : Nat) : TupleTable :=
  let created :=
    match tbl.find? (fun p => p.1 = k) with
    | some p => p.2.createdAt
    | none => now
  (tbl.filter fun p => ¬ p.1 = k) ++ [(k, ⟨c, created, now⟩)]

/-- `DELETE FROM fga_tuples WHERE <five key columns>` (both relational
adapters); deleting an absent row is not an error. -/
def deleteTuple (tbl : TupleTable) (k : TupleKey5) : TupleTable :=
  tbl.filter fun p => ¬ p.1 = k

/-- One iteration of the `for _, change := range changes` loop of
`PostgresAdapter.ApplyChanges`: write operations upsert, delete operations
delete, anything else is logged and skipped. -/
def applyEventPg (now : Nat) (tbl : TupleTable) (e : ChangeEvent) : TupleTable :=
  if isWriteOp e.operation then pgUpsert tbl (eventKey e) (condValue e) now
  else if isDeleteOp e.operation then deleteTuple tbl (eventKey e)
  else tbl

def pgApplyList (now : Nat) (tbl : TupleTable) (changes : List ChangeEvent) : TupleTable :=
  changes.foldl (applyEventPg now) tbl

/-- One iteration of the `SQLiteAdapter.ApplyChanges` loop. -/
def applyEventSqlite (now : Nat) (tbl : TupleTable) (e : ChangeEvent) : TupleTable :=
  if isWriteOp e.operation then sqliteUpsert tbl (eventKey e) (condValue e) now
  else if isDeleteOp e.operation then deleteTuple tbl (eventKey e)
  else tbl

def sqliteApplyList (now : Nat) (tbl : TupleTable) (changes : List ChangeEvent) : TupleTable :=
  changes.foldl (applyEventSqlite now) tbl

/-- The row stored under a key (lookup through the primary key). -/
def lookupRow (tbl : TupleTable) (k : TupleKey5) : Option TupleRow :=
  (tbl.find? fun p => p.1 = k).map (·.2)

/-- The logical contents of the table at a key: `some c` when a row with
that key is present and stores condition `c`, `none` when absent.  The
bookkeeping columns `created_at` / `updated_at` (which carry the batch's
transaction clock) are not part of this view. -/
def lookupCond (tbl : TupleTable) (k : TupleKey5) : Option (Option String) :=
  (lookupRow tbl k).map (·.condition)

/-! ## Logical per-key semantics of the state projection

`applyEventMap` is the effect of one loop iteration of the relational
`ApplyChanges` on the logical contents view; both the Postgres and the
SQLite upserts realize exactly this per-key effect. -/

abbrev CellVal := Option (Option String)

def applyEventMap (m : TupleKey5 → CellVal) (e : ChangeEvent) : TupleKey5 → CellVal :=
  if isWriteOp e.operation then
    fun k => if k = eventKey e then some (condValue e) else m k
  else if isDeleteOp e.operation then
    fun k => if k = eventKey e then none else m k
  else m

def applyListMap (m : TupleKey5 → CellVal) (S : List ChangeEvent) : TupleKey5 → CellVal :=
  S.foldl applyEventMap m

/-- The forced final cell value a single event imposes on a key, if any. -/
def eventEffect (e : ChangeEvent) (k : TupleKey5) : Option CellVal :=
  if isWriteOp e.operation then
    (if k = eventKey e then some (some (condValue e)) else none)
  else if isDeleteOp e.operation then
    (if k = eventKey e then some none else none)
  else none

def effectStep (k : TupleKey5) (acc : Option CellVal) (e : ChangeEvent) : Option CellVal :=
  match eventEffect e k with
  | some v => some v
  | none => acc

/-- The last-writer-wins effect of an event list on a key. -/
def listEffect (S : List ChangeEvent) (k : TupleKey5) : Option CellVal :=
  S.foldl (effectStep k) none

/-! ## Row-level frame properties of the upserts (for the `fga_tuples` schema) -/

def keysOf (tbl : TupleTable) : List TupleKey5 :=
  tbl.map Prod.fst

def rowsFor (tbl : TupleTable) (k : TupleKey5) : TupleTable :=
  tbl.filter fun p => p.1 = k

def countKey (tbl : TupleTable) (k : TupleKey5) : Nat :=
  ((keysOf tbl).filter fun k0 => k0 = k).length

/-! ## The OpenFGA (remote) sink: batching and write/delete grouping
(`storage/openfga.go`) -/

structure FgaTupleKey where
  user : String
  relation : String
  object : String
  deriving DecidableEq

/-- `convertToTupleKey` (storage/openfga.go:349): rebuild the `type:id`
strings from the parsed components.  (The optional condition attachment is
not modelled: the ordering and mode claims do not observe it.) -/
def convertToTupleKey (e : ChangeEvent) : FgaTupleKey :=
  ⟨if ¬ e.userType = "" then e.userType ++ ":" ++ e.userId else e.userId,
   e.relation,
   if ¬ e.objectType = "" then e.objectType ++ ":" ++ e.objectId else e.objectId⟩

/-- An entry of the single Write request `processBatch` submits: a member
of its `Writes` list or of its `Deletes` list. -/
inductive FgaWriteOp where
  | write (k : FgaTupleKey)
  | del (k : FgaTupleKey)
  deriving DecidableEq

def FgaWriteOp.isWrite : FgaWriteOp → Bool
  | .write _ => true
  | .del _ => false

/-- `processBatch` (storage/openfga.go:316) separates one batch into the
`Writes` and `Deletes` lists of a single OpenFGA Write request; in the
submitted request all writes precede all deletes.  Unknown operations are
logged and skipped. -/
def processBatchOps (batch : List ChangeEvent) : List FgaWriteOp :=
  ((batch.filter fun e => isWriteOp e.operation).map fun e =>
    FgaWriteOp.write (convertToTupleKey e)) ++
  ((batch.filter fun e => isDeleteOp e.operation).map fun e =>
    FgaWriteOp.del (convertToTupleKey e))

/-- The chunking loop of `applyChanges` (storage/openfga.go:297):
`for i := 0; i < len(changes); i += o.batchSize`, phrased with the list
length as structural fuel (one loop iteration consumes at least one element
whenever `batchSize ≥ 1`, which the adapter constructor guarantees â default
100 â so the fuel never runs out; the fuel-exhausted and `n = 0` arms are
unreachable in the adapter and exist only to make the recursion total). -/
def chunkGo {α : Type} (n : Nat) : Nat → List α → List (List α)
  | _, [] => []
  | 0, l => [l]
  | Nat.succ fuel, x :: xs =>
    if n = 0 then [x :: xs]
    else (x :: xs).take n :: chunkGo n fuel ((x :: xs).drop n)

def chunkList {α : Type} (n : Nat) (l : List α) : List (List α) :=
  chunkGo n l.length l

/-- The full sequence of tuple operations the remote sink receives from one
`applyChanges` call, chunk by chunk. -/
def fgaSubmittedOps (n : Nat) (changes : List ChangeEvent) : List FgaWriteOp :=
  (chunkList n changes).flatMap processBatchOps

/-- The operations in the order the source returned them (unknown
operations skipped), i.e. what order preservation would demand. -/
def sourceOps (changes : List ChangeEvent) : List FgaWriteOp :=
  changes.filterMap fun e =>
    if isWriteOp e.operation then some (FgaWriteOp.write (convertToTupleKey e))
    else if isDeleteOp e.operation then some (FgaWriteOp.del (convertToTupleKey e))
    else none

/-! ## Storage adapter states, mode checks and the cursor cell -/

inductive StorageMode where
  | changelog
  | stateful
  deriving DecidableEq

/-- One row of the `fga_changelog` table.  The `change_type` column receives
`change.Operation` verbatim (see the insert statements of both relational
adapters); `raw_event` keeps the marshalled event, modelled as the event
value itself. -/
structure LogRow where
  changeType : String
  objectType : String
  objectId : String
  relation : String
  userType : String
  userId : String
  timestamp : Nat
  condition : Option String
  raw : ChangeEvent
  deriving DecidableEq

def logRowOf (e : ChangeEvent) : LogRow :=
  ⟨e.operation, e.objectType, e.objectId, e.relation, e.userType, e.userId,
   e.timestamp, condValue e, e⟩

/-- Durable state of the Postgres adapter: the mode fixed at construction,
the two mode-specific tables, and the `sync_state.continuation_token`
cell. -/
structure PgState where
  mode : StorageMode
  changelog : List LogRow
  tuples : TupleTable
  token : String
  deriving DecidableEq

/-- `PostgresAdapter.WriteChanges` (storage/postgres.go:118): an empty
batch returns success immediately (before the mode check); a non-empty
batch in the wrong mode returns the mode-mismatch error before any write;
otherwise all rows are inserted in order within one transaction. -/
def pgWriteChanges (st : PgState) (changes : List ChangeEvent) :
    PgState × Option String :=
  if changes = [] then (st, none)
  else if ¬ st.mode = StorageMode.changelog then
    (st, some "WriteChanges is only supported in changelog mode")
  else (⟨st.mode, st.changelog ++ changes.map logRowOf, st.tuples, st.token⟩, none)

/-- `PostgresAdapter.ApplyChanges` (storage/postgres.go:203): same check
order; the state projection runs in one transaction. -/
def pgApplyChanges (st : PgState) (changes : List ChangeEvent) (now : Nat) :
    PgState × Option String :=
  if changes = [] then (st, none)
  else if ¬ st.mode = StorageMode.stateful then
    (st, some "ApplyChanges is only supported in stateful mode")
  else (⟨st.mode, st.changelog, pgApplyList now st.tuples changes, st.token⟩, none)

/-- `PostgresAdapter.SaveContinuationToken` (storage/postgres.go:299): a
single `UPDATE sync_state SET continuation_token = $1` statement. -/
def pgSaveContinuationToken (st : PgState) (token : String) : PgState :=
  ⟨st.mode, st.changelog, st.tuples, token⟩

/-- Durable state of the SQLite adapter (same shape as Postgres). -/
structure SqliteState where
  mode : StorageMode
  changelog : List LogRow
  tuples : TupleTable
  token : String
  deriving DecidableEq

/-- `SQLiteAdapter.WriteChanges`: identical check order and insert loop. -/
def sqliteWriteChanges (st : SqliteState) (changes : List ChangeEvent) :
    SqliteState × Option String :=
  if changes = [] then (st, none)
  else if ¬ st.mode = StorageMode.changelog then
    (st, some "WriteChanges is only supported in changelog mode")
  else (⟨st.mode, st.changelog ++ changes.map logRowOf, st.tuples, st.token⟩, none)

/-- `SQLiteAdapter.ApplyChanges`: identical check order; the upsert is the
`INSERT OR REPLACE` from `sqliteUpsert`. -/
def sqliteApplyChanges (st : SqliteState) (changes : List ChangeEvent) (now : Nat) :
    SqliteState × Option String :=
  if changes = [] then (st, none)
  else if ¬ st.mode = StorageMode.stateful then
    (st, some "ApplyChanges is only supported in stateful mode")
  else (⟨st.mode, st.changelog, sqliteApplyList now st.tuples changes, st.token⟩, none)

/-- State of the OpenFGA adapter: mode and batch size fixed at
construction, the in-memory continuation token, and the sequence of tuple
operations submitted to the target store so far. -/
structure FgaState where
  mode : StorageMode
  batchSize : Nat
  lastToken : String
  submitted : List FgaWriteOp
  deriving DecidableEq

/-- The success path shared by both OpenFGA adapter entry points
(`applyChangesWithRetry` → `applyChanges` → `processBatch`). -/
def fgaApplyPipeline (st : FgaState) (changes : List ChangeEvent) :
    FgaState × Option String :=
  (⟨st.mode, st.batchSize, st.lastToken,
    st.submitted ++ fgaSubmittedOps st.batchSize changes⟩, none)

/-- `OpenFGAAdapter.WriteChanges` (storage/openfga.go:232): empty check
first, then the mode check, then the batched pipeline. -/
def fgaWriteChanges (st : FgaState) (changes : List ChangeEvent) :
    FgaState × Option String :=
  if changes = [] then (st, none)
  else if ¬ st.mode = StorageMode.changelog then
    (st, some "WriteChanges is only supported in changelog mode")
  else fgaApplyPipeline st changes

/-- `OpenFGAAdapter.ApplyChanges` (storage/openfga.go:246). -/
def fgaApplyChanges (st : FgaState) (changes : List ChangeEvent) :
    FgaState × Option String :=
  if changes = [] then (st, none)
  else if ¬ st.mode = StorageMode.stateful then
    (st, some "ApplyChanges is only supported in stateful mode")
  else fgaApplyPipeline st changes

/-! ## Wire records and the page fetch (`fetcher/openfga.go`) -/

structure WireTupleKey where
  user : Option String
  relation : Option String
  object : Option String
  condition : Option String
  deriving DecidableEq

/-- A wire change record as the SDK hands it over: each field may be
absent.  `timestamp` is `some t` when present and RFC3339-parseable (a
parsed zero instant is treated like an absent one, as `IsZero` does);
`condition` is the serialized condition object when one is present. -/
structure WireChange where
  operation : Option String
  timestamp : Option Nat
  tupleKey : Option WireTupleKey
  deriving DecidableEq

/-- A canonical rendering of the wire record, standing in for
`json.Marshal(change)`: the claims only require the raw payload to be a
string determined by the record. -/
def serializeWire (w : WireChange) : String :=
  "operation=" ++ (w.operation.getD "<absent>") ++
  ";timestamp=" ++ (match w.timestamp with | some t => toString t | none => "<absent>") ++
  ";tuple_key=" ++
    (match w.tupleKey with
     | some tk =>
       "user=" ++ tk.user.getD "<absent>" ++
       ",relation=" ++ tk.relation.getD "<absent>" ++
       ",object=" ++ tk.object.getD "<absent>" ++
       ",condition=" ++ tk.condition.getD "<absent>"
     | none => "<absent>")

/-- Embedding of `parseChangeEvent` (fetcher/openfga.go:402).  The only
error paths in the source are JSON (un)marshalling failures, which cannot
occur for the SDK's record shapes, so every record — also one missing its
`tuple_key` — parses into an event: missing fields default to the empty
string and a missing or unparseable timestamp becomes the current instant
`now`.  Identity splitting uses the parsers above. -/
def parseChangeEvent (now : Nat) (w : WireChange) : Except String ChangeEvent :=
  let operation := w.operation.getD ""
  let timestamp := w.timestamp.getD now
  let user := match w.tupleKey with | some tk => tk.user.getD "" | none => ""
  let relation := match w.tupleKey with | some tk => tk.relation.getD "" | none => ""
  let object := match w.tupleKey with | some tk => tk.object.getD "" | none => ""
  let condition := match w.tupleKey with | some tk => tk.condition.getD "" | none => ""
  let ut := (parseUserTypeAndID user).1
  let uid := (parseUserTypeAndID user).2
  let ot := (parseObjectTypeAndID object).1
  let oid := (parseObjectTypeAndID object).2
  Except.ok ⟨ot, oid, relation, ut, uid, determineChangeType operation, timestamp,
    condition, serializeWire w, ⟨user, ut, uid, relation, object, ot, oid⟩, operation⟩

structure FetchResult where
  changes : List ChangeEvent
  continuationToken : String
  hasMore : Bool
  totalFetched : Nat
  deriving DecidableEq

/-- `FetchChangesWithPaging` (fetcher/openfga.go:270,302-324): parse each
record of the response in order, skipping any whose parse errors (with a
warning) while the page still succeeds; the page's next token is the
response token (empty when the response carries none), `has_more` iff it
is non-empty. -/
def fetchPage (now : Nat) (records : List WireChange) (respToken : Option String) :
    FetchResult :=
  let changes := records.filterMap fun w => (parseChangeEvent now w).toOption
  let nextToken := respToken.getD ""
  ⟨changes, nextToken, ¬ nextToken = "", changes.length⟩

/-! ## The sync tick (`main.go syncChanges` / `runSyncLoop`) -/

inductive FetchOutcome where
  | failed
  | ok (r : FetchResult)
  deriving DecidableEq

structure SyncState where
  memToken : String
  sink : PgState
  deriving DecidableEq

structure TickResult where
  memToken : String
  sink : PgState
  ok : Bool
  deriving DecidableEq

/-- One `syncChanges` tick (main.go:252-385) against the transactional
Postgres sink, with failure injection: `fetch` is the outcome of
`FetchChangesWithRetry`; `writeOk` injects a database failure into the
mode-dispatched batch write (its transaction rolls back, leaving the sink
unchanged); `saveOk` injects a failure into the single
`SaveContinuationToken` statement (the token cell stays unchanged).  An
empty page ends the tick successfully without touching anything; a token
is saved — and the in-memory token advanced — only when the fetched
`next_token` is non-empty. -/
def syncTick (now : Nat) (st : SyncState) (fetch : FetchOutcome)
    (writeOk saveOk : Bool) : TickResult :=
  match fetch with
  | .failed => ⟨st.memToken, st.sink, false⟩
  | .ok r =>
    if r.changes = [] then ⟨st.memToken, st.sink, true⟩
    else
      if writeOk = false ∨
          (if st.sink.mode = StorageMode.changelog then pgWriteChanges st.sink r.changes
           else pgApplyChanges st.sink r.changes now).2.isSome = true then
        ⟨st.memToken, st.sink, false⟩
      else if ¬ r.continuationToken = "" then
        if saveOk then
          ⟨r.continuationToken,
           pgSaveContinuationToken
             (if st.sink.mode = StorageMode.changelog then pgWriteChanges st.sink r.changes
              else pgApplyChanges st.sink r.changes now).1 r.continuationToken, true⟩
        else
          ⟨st.memToken,
           (if st.sink.mode = StorageMode.changelog then pgWriteChanges st.sink r.changes
            else pgApplyChanges st.sink r.changes now).1, false⟩
      else
        ⟨st.memToken,
         (if st.sink.mode = StorageMode.changelog then pgWriteChanges st.sink r.changes
          else pgApplyChanges st.sink r.changes now).1, true⟩

/-- The sequence of durable sink states a successful LOG-mode tick passes
through: the batch insert commits in one transaction (`WriteChanges`), and
the token update commits separately (`SaveContinuationToken`), exactly as
`syncChanges` calls them one after the other. -/
def logTickDurableStates (st : PgState) (r : FetchResult) : List PgState :=
  if r.changes = [] then [st]
  else
    if ¬ r.continuationToken = "" then
      [st, (pgWriteChanges st r.changes).1,
       pgSaveContinuationToken (pgWriteChanges st r.changes).1 r.continuationToken]
    else [st, (pgWriteChanges st r.changes).1]

/-! ## Concrete test fixtures for the counterexamples and witnesses -/

def tkOf (ut uid rel ot oid : String) : TupleKey :=
  ⟨ut ++ ":" ++ uid, ut, uid, rel, ot ++ ":" ++ oid, ot, oid⟩

def evWrite (ot oid rel ut uid cond : String) : ChangeEvent :=
  ⟨ot, oid, rel, ut, uid, "tuple_write", 0, cond, "", tkOf ut uid rel ot oid, "WRITE"⟩

def evDelete (ot oid rel ut uid : String) : ChangeEvent :=
  ⟨ot, oid, rel, ut, uid, "tuple_delete", 0, "", "", tkOf ut uid rel ot oid, "DELETE"⟩

def eDel1 : ChangeEvent := evDelete "document" "readme" "viewer" "user" "alice"

def eWr2 : ChangeEvent := evWrite "document" "readme" "editor" "user" "bob" ""

def stLog0 : PgState := ⟨StorageMode.changelog, [], [], ""⟩

def rOnePage : FetchResult := ⟨[eWr2], "t1", true, 1⟩

def stSync0 : SyncState := ⟨"", stLog0⟩

def kC8 : TupleKey5 := ("document", "x", "viewer", "user", "alice")

def rowC8 : TupleRow := ⟨none, 3, 3⟩

def tblC8 : TupleTable := [(kC8, rowC8)]

def eC8a : ChangeEvent := evWrite "document" "x" "viewer" "user" "alice" "c1"

def eC8b : ChangeEvent := evWrite "document" "x" "viewer" "user" "alice" "c2"

def stPstate : PgState := ⟨StorageMode.stateful, [], [], ""⟩

def stSstate : SqliteState := ⟨StorageMode.stateful, [], [], ""⟩

def stFstate : FgaState := ⟨StorageMode.stateful, 100, "", []⟩

def wrGood1 : WireChange :=
  ⟨some "WRITE", some 4, some ⟨some "user:alice", some "viewer", some "document:readme", none⟩⟩

def wrNoTK : WireChange := ⟨some "WRITE", some 5, none⟩

def wrGood3 : WireChange :=
  ⟨some "DELETE", some 6, some ⟨some "user:bob", some "editor", some "document:spec", none⟩⟩

theorem containsChar_eq_false_iff (sep : Char) (l : List Char) :
    containsChar sep l = false ↔ sep ∉ l := by
  constructor
  · intro h hmem
    have : containsChar sep l = true := by
      simp only [containsChar, List.any_eq_true]
      exact ⟨sep, hmem, by simp⟩
    rw [h] at this
    exact Bool.noConfusion this
  · intro h
    by_contra hne
    have : containsChar sep l = true := by
      cases hb : containsChar sep l with
      | true => rfl
      | false => exact absurd hb hne
    simp only [containsChar, List.any_eq_true, decide_eq_true_eq] at this
    obtain ⟨c, hc, rfl⟩ := this
    exact h hc

theorem containsChar_eq_true_iff (sep : Char) (l : List Char) :
    containsChar sep l = true ↔ sep ∈ l := by
  constructor
  · intro h
    simp only [containsChar, List.any_eq_true, decide_eq_true_eq] at h
    obtain ⟨c, hc, rfl⟩ := h
    exact hc
  · intro h
    simp only [containsChar, List.any_eq_true, decide_eq_true_eq]
    exact ⟨sep, h, rfl⟩

theorem splitAtFirst_eq_none_iff (sep : Char) (l : List Char) :
    splitAtFirst sep l = none ↔ sep ∉ l := by
  induction l with
  | nil => simp [splitAtFirst]
  | cons c cs ih =>
    by_cases h : c = sep
    · subst h
      simp [splitAtFirst]
    · cases hs : splitAtFirst sep cs with
      | none =>
        have hnotin : sep ∉ cs := ih.mp hs
        simp only [splitAtFirst, if_neg h, hs, List.mem_cons]
        constructor
        · intro _ hmem
          rcases hmem with h1 | h2
          · exact h h1.symm
          · exact hnotin h2
        · intro _
          trivial
      | some pr =>
        have hin : sep ∈ cs := by
          by_contra hno
          rw [ih.mpr hno] at hs
          exact Option.noConfusion hs
        simp only [splitAtFirst, if_neg h, hs, List.mem_cons]
        constructor
        · intro hcontr
          exact Option.noConfusion hcontr
        · intro hno
          exact absurd (Or.inr hin) hno

theorem splitAtFirst_head (sep : Char) (l : List Char) (p r : List Char)
    (h : splitAtFirst sep l = some (p, r)) : (p = [] ↔ l.head? = some sep) := by
  cases l with
  | nil => exact absurd h (by simp [splitAtFirst])
  | cons c cs =>
    by_cases hc : c = sep
    · subst hc
      simp [splitAtFirst] at h
      simp [← h.1]
    · simp only [splitAtFirst, if_neg hc] at h
      cases hs : splitAtFirst sep cs with
      | none =>
        rw [hs] at h
        exact Option.noConfusion h
      | some pr =>
        rw [hs] at h
        simp only [Option.some_inj] at h
        have hp : p = c :: pr.1 := by
          have := congrArg Prod.fst h
          simpa using this.symm
        constructor
        · intro hpe
          rw [hp] at hpe
          exact absurd hpe (List.cons_ne_nil c pr.1)
        · intro hh
          simp only [List.head?_cons, Option.some_inj] at hh
          exact absurd hh hc

theorem string_mk_eq_empty_iff (p : List Char) : (String.mk p = "") ↔ p = [] := by
  simp [String.ext_iff]

theorem splitAtFirst_isSome_of_mem (sep : Char) (l : List Char) (h : sep ∈ l) :
    ∃ p r, splitAtFirst sep l = some (p, r) := by
  cases hs : splitAtFirst sep l with
  | none => exact absurd ((splitAtFirst_eq_none_iff sep l).mp hs) (by simp [h])
  | some pr =>
    obtain ⟨p, r⟩ := pr
    exact ⟨p, r, rfl⟩

/-- The user parser agrees with the spec's four rules once rule 2 (the `#`
branch) is weakened to split at the first colon without requiring a
non-empty part before it. -/
theorem parseUser_eq_specAmended (s : String) :
    parseUserTypeAndID s = specParseQualified false "user" s := rfl

/-- The object parser satisfies the spec's four rules exactly as written:
it has no dedicated `#` branch, but on strings containing `#` its plain
colon split coincides with the spec's rule 2. -/
theorem parseObject_eq_spec (s : String) :
    parseObjectTypeAndID s = specParseQualified true "object" s := by
  by_cases he : s = ""
  · simp [parseObjectTypeAndID, specParseQualified, he]
  · by_cases hh : containsChar '#' s.data = true
    · cases hs : splitAtFirst ':' s.data with
      | none =>
        have hc : containsChar ':' s.data = false := by
          rw [containsChar_eq_false_iff]
          exact (splitAtFirst_eq_none_iff ':' s.data).mp hs
        simp [parseObjectTypeAndID, specParseQualified, he, hh, hs, hc]
      | some pr =>
        have hmem : ':' ∈ s.data := by
          by_contra hno
          rw [(splitAtFirst_eq_none_iff ':' s.data).mpr hno] at hs
          exact Option.noConfusion hs
        have hc : containsChar ':' s.data = true :=
          (containsChar_eq_true_iff ':' s.data).mpr hmem
        simp [parseObjectTypeAndID, specParseQualified, he, hh, hs, hc]
    · simp [parseObjectTypeAndID, specParseQualified, he, hh]

/-- C3 counterexample: on `":a#b"` (which contains `#` and has an empty part
before its first colon) the user parser returns the empty type `""` together
with the remainder, whereas rule 2 of the claim demands the fallback
`(defaultType, s)`. -/
theorem userParser_rule2_fails_on_empty_colon_head :
    parseUserTypeAndID ":a#b" = ("", "a#b") ∧
    specParseQualified true "user" ":a#b" = ("user", ":a#b") ∧
    parseUserTypeAndID ":a#b" ≠ specParseQualified true "user" ":a#b" := by
  refine ⟨by decide, by decide, by decide⟩

/-- C3 (amended): the identity parsers obey the four ordered rules, with
rule 2 for the user parser weakened to: if `s` contains `#`, split at the
first `:` and return `(prefix_part, remainder_including_hash)` whenever a
colon exists — even when the part before the colon is empty; only when `s`
has no colon at all does it fall back to `(defaultType, s)`.  The object
parser satisfies the four rules exactly as the claim states them, and
`"group:engineering#member"` parses to `("group", "engineering#member")`. -/
theorem identity_parser_rules :
    (∀ s, parseUserTypeAndID s = specParseQualified false "user" s) ∧
    (∀ s, parseObjectTypeAndID s = specParseQualified true "object" s) ∧
    parseUserTypeAndID "group:engineering#member" = ("group", "engineering#member") :=
  ⟨fun s => parseUser_eq_specAmended s, fun s => parseObject_eq_spec s, by decide⟩

/-- C4 counterexample: on `":engineering#member"` the user parser returns an
empty type component, contradicting the claim that the type component is a
non-empty string for every input. -/
theorem userParser_empty_type_on_hash_colon_head :
    parseUserTypeAndID ":engineering#member" = ("", "engineering#member") ∧
    (parseUserTypeAndID ":engineering#member").1 = "" := by
  refine ⟨by decide, by decide⟩

/-- C4 (amended): the user parser is a total function (it returns without
error on every string), and its type component is non-empty for every input
string except exactly those that contain `#` and begin with `:` (so the part
before the first colon is empty); on those inputs the type component is the
empty string. -/
theorem userParser_type_empty_characterization :
    ∀ s : String, (parseUserTypeAndID s).1 = "" ↔
      (containsChar '#' s.data = true ∧ s.data.head? = some ':') := by
  intro s
  by_cases he : s = ""
  · subst he
    simp [parseUserTypeAndID]
  · by_cases hh : containsChar '#' s.data = true
    · cases hs : splitAtFirst ':' s.data with
      | none =>
        have hnm : ':' ∉ s.data := (splitAtFirst_eq_none_iff ':' s.data).mp hs
        simp only [parseUserTypeAndID, if_neg he, hh, if_true, hs]
        constructor
        · intro habs
          exact absurd habs (by decide)
        · rintro ⟨-, hhd⟩
          cases hl : s.data with
          | nil => rw [hl] at hhd; exact Option.noConfusion hhd
          | cons c cs =>
            rw [hl] at hhd
            simp only [List.head?_cons, Option.some_inj] at hhd
            rw [hl, hhd] at hnm
            exact absurd (List.mem_cons_self ':' cs) hnm
      | some pr =>
        obtain ⟨p, r⟩ := pr
        have hhead := splitAtFirst_head ':' s.data p r hs
        simp only [parseUserTypeAndID, if_neg he, hh, if_true, hs]
        rw [string_mk_eq_empty_iff]
        constructor
        · intro hp
          refine ⟨?_, hhead.mp hp⟩
          simp [hh]
        · rintro ⟨-, hhd⟩
          exact hhead.mpr hhd
    · have hh' : containsChar '#' s.data = false := Bool.eq_false_iff.mpr hh
      have hfalse : ¬ (containsChar '#' s.data = true ∧ s.data.head? = some ':') := by
        rintro ⟨hcontr, -⟩
        exact hh hcontr
      by_cases hc : containsChar ':' s.data = true
      · obtain ⟨p, r, hs⟩ :=
          splitAtFirst_isSome_of_mem ':' s.data ((containsChar_eq_true_iff ':' s.data).mp hc)
        by_cases hp : p = []
        · simp [parseUserTypeAndID, he, hh', hc, hs, hp, hfalse]
        · simp [parseUserTypeAndID, he, hh', hc, hs, hp, string_mk_eq_empty_iff, hfalse]
      · have hc' : containsChar ':' s.data = false := Bool.eq_false_iff.mpr hc
        simp [parseUserTypeAndID, he, hh', hc', hfalse]

theorem isDeleteOp_eq_false_of_isWriteOp (op : String) (h : isWriteOp op = true) :
    isDeleteOp op = false := by
  simp only [isWriteOp, Bool.or_eq_true, decide_eq_true_eq] at h
  simp only [isDeleteOp, Bool.or_eq_false_iff, decide_eq_false_iff_not]
  rcases h with h | h <;> rw [h] <;> exact ⟨by decide, by decide⟩

theorem find?_map_of_pred_comm {α : Type} (f : α → α) (pr : α → Bool)
    (h : ∀ a, pr (f a) = pr a) (l : List α) :
    (l.map f).find? pr = (l.find? pr).map f := by
  induction l with
  | nil => rfl
  | cons a l ih =>
    rw [List.map_cons, List.find?_cons, List.find?_cons]
    cases hp : pr a with
    | true => rw [h a, hp]; rfl
    | false => rw [h a, hp]; exact ih

theorem find?_filter_of_imp {α : Type} (q pr : α → Bool)
    (h : ∀ a, pr a = true → q a = true) (l : List α) :
    (l.filter q).find? pr = l.find? pr := by
  induction l with
  | nil => rfl
  | cons a l ih =>
    cases hq : q a with
    | true =>
      rw [List.filter_cons_of_pos hq, List.find?_cons, List.find?_cons]
      cases hp : pr a with
      | true => rfl
      | false => exact ih
    | false =>
      rw [List.filter_cons_of_neg (by rw [hq]; exact Bool.noConfusion),
        List.find?_cons]
      cases hp : pr a with
      | true => exact absurd (h a hp) (by rw [hq]; exact Bool.noConfusion)
      | false => exact ih

theorem find?_eq_none_of_hasKey_false (tbl : TupleTable) (k : TupleKey5)
    (h : hasKey tbl k = false) : tbl.find? (fun p => p.1 = k) = none := by
  rw [List.find?_eq_none]
  intro x hx hpx
  have : hasKey tbl k = true := by
    simp only [hasKey, List.any_eq_true]
    exact ⟨x, hx, hpx⟩
  rw [h] at this
  exact Bool.noConfusion this

theorem lookupCond_append_single (tbl : TupleTable) (k : TupleKey5) (row : TupleRow)
    (h : tbl.find? (fun p => p.1 = k) = none) :
    lookupCond (tbl ++ [(k, row)]) k = some row.condition := by
  rw [lookupCond, lookupRow, List.find?_append, h]
  simp

theorem lookupCond_append_single_ne (tbl : TupleTable) (k k' : TupleKey5) (row : TupleRow)
    (h : ¬ k' = k) :
    lookupCond (tbl ++ [(k, row)]) k' = lookupCond tbl k' := by
  rw [lookupCond, lookupRow, List.find?_append]
  have hsing : ([(k, row)].find? fun p => decide (p.1 = k')) = none := by
    rw [List.find?_eq_none]
    intro x hx hpx
    simp only [List.mem_singleton] at hx
    subst hx
    exact h (of_decide_eq_true hpx).symm
  rw [hsing, Option.or_none]
  rfl

theorem filtered_find?_self_eq_none (tbl : TupleTable) (k : TupleKey5) :
    (tbl.filter fun p => ¬ p.1 = k).find? (fun p => p.1 = k) = none := by
  rw [List.find?_eq_none]
  intro x hx hpx
  have hmem := List.of_mem_filter hx
  exact (of_decide_eq_true hmem) (of_decide_eq_true hpx)

theorem filtered_find?_ne (tbl : TupleTable) (k k' : TupleKey5) (h : ¬ k' = k) :
    (tbl.filter fun p => ¬ p.1 = k).find? (fun p => p.1 = k') =
      tbl.find? (fun p => p.1 = k') := by
  refine find?_filter_of_imp _ _ ?_ tbl
  intro p hp
  have := of_decide_eq_true hp
  exact decide_eq_true (by rw [this]; exact fun hc => h hc)

theorem lookupCond_pgUpsert (tbl : TupleTable) (k0 k : TupleKey5) (c : Option String) (now : Nat) :
    lookupCond (pgUpsert tbl k0 c now) k = if k = k0 then some c else lookupCond tbl k := by
  by_cases hk : hasKey tbl k0 = true
  · simp only [pgUpsert, if_pos hk]
    have hcomm : ∀ p : TupleKey5 × TupleRow,
        (fun p : TupleKey5 × TupleRow => decide (p.1 = k))
          ((fun p => if p.1 = k0 then (p.1, ⟨c, p.2.createdAt, now⟩) else p) p) =
        decide (p.1 = k) := by
      intro p
      by_cases hp : p.1 = k0 <;> simp [hp]
    rw [lookupCond, lookupRow,
      find?_map_of_pred_comm _ (fun p => decide (p.1 = k)) hcomm tbl]
    by_cases hkk : k = k0
    · subst hkk
      obtain ⟨q, hq⟩ : ∃ q, tbl.find? (fun p => decide (p.1 = k)) = some q := by
        cases hf : tbl.find? (fun p => decide (p.1 = k)) with
        | none =>
          exfalso
          simp only [hasKey, List.any_eq_true] at hk
          obtain ⟨x, hx, hpx⟩ := hk
          exact (List.find?_eq_none.mp hf x hx) hpx
        | some q => exact ⟨q, rfl⟩
      have hq1 : q.1 = k := by simpa using List.find?_some hq
      rw [hq]
      simp [hq1]
    · cases hf : tbl.find? (fun p => decide (p.1 = k)) with
      | none => simp [hkk, lookupCond, lookupRow, hf]
      | some q =>
        have hq1 : q.1 = k := by simpa using List.find?_some hf
        have hq0 : ¬ q.1 = k0 := by rw [hq1]; exact hkk
        simp [hkk, lookupCond, lookupRow, hf, hq0]
  · have hk' : hasKey tbl k0 = false := Bool.eq_false_iff.mpr hk
    simp only [pgUpsert, hk', Bool.false_eq_true, if_false]
    by_cases hkk : k = k0
    · subst hkk
      rw [if_pos rfl]
      exact lookupCond_append_single tbl k _ (find?_eq_none_of_hasKey_false tbl k hk')
    · rw [if_neg hkk]
      exact lookupCond_append_single_ne tbl k0 k _ hkk

theorem lookupCond_sqliteUpsert (tbl : TupleTable) (k0 k : TupleKey5) (c : Option String)
    (now : Nat) :
    lookupCond (sqliteUpsert tbl k0 c now) k = if k = k0 then some c else lookupCond tbl k := by
  by_cases hkk : k = k0
  · subst hkk
    rw [if_pos rfl, sqliteUpsert]
    exact lookupCond_append_single _ k _ (filtered_find?_self_eq_none tbl k)
  · rw [if_neg hkk, sqliteUpsert]
    rw [lookupCond_append_single_ne _ k0 k _ hkk]
    rw [lookupCond, lookupRow, filtered_find?_ne tbl k0 k hkk]
    rfl

theorem lookupCond_deleteTuple (tbl : TupleTable) (k0 k : TupleKey5) :
    lookupCond (deleteTuple tbl k0) k = if k = k0 then none else lookupCond tbl k := by
  by_cases hkk : k = k0
  · subst hkk
    rw [if_pos rfl, deleteTuple, lookupCond, lookupRow, filtered_find?_self_eq_none tbl k]
    rfl
  · rw [if_neg hkk, deleteTuple, lookupCond, lookupRow, filtered_find?_ne tbl k0 k hkk]
    rfl

theorem lookupCond_applyEventPg (now : Nat) (tbl : TupleTable) (e : ChangeEvent)
    (k : TupleKey5) :
    lookupCond (applyEventPg now tbl e) k = applyEventMap (lookupCond tbl) e k := by
  rw [applyEventPg, applyEventMap]
  by_cases hw : isWriteOp e.operation = true
  · rw [if_pos hw, if_pos hw, lookupCond_pgUpsert]
  · rw [if_neg hw, if_neg hw]
    by_cases hd : isDeleteOp e.operation = true
    · rw [if_pos hd, if_pos hd, lookupCond_deleteTuple]
    · rw [if_neg hd, if_neg hd]

theorem lookupCond_applyEventSqlite (now : Nat) (tbl : TupleTable) (e : ChangeEvent)
    (k : TupleKey5) :
    lookupCond (applyEventSqlite now tbl e) k = applyEventMap (lookupCond tbl) e k := by
  rw [applyEventSqlite, applyEventMap]
  by_cases hw : isWriteOp e.operation = true
  · rw [if_pos hw, if_pos hw, lookupCond_sqliteUpsert]
  · rw [if_neg hw, if_neg hw]
    by_cases hd : isDeleteOp e.operation = true
    · rw [if_pos hd, if_pos hd, lookupCond_deleteTuple]
    · rw [if_neg hd, if_neg hd]

theorem lookupCond_pgApplyList (now : Nat) (S : List ChangeEvent) :
    ∀ (tbl : TupleTable) (k : TupleKey5),
      lookupCond (pgApplyList now tbl S) k = applyListMap (lookupCond tbl) S k := by
  induction S with
  | nil => intro tbl k; rfl
  | cons e S ih =>
    intro tbl k
    have hstep : lookupCond (applyEventPg now tbl e) = applyEventMap (lookupCond tbl) e :=
      funext fun k' => lookupCond_applyEventPg now tbl e k'
    calc lookupCond (pgApplyList now tbl (e :: S)) k
        = lookupCond (pgApplyList now (applyEventPg now tbl e) S) k := rfl
      _ = applyListMap (lookupCond (applyEventPg now tbl e)) S k := ih _ k
      _ = applyListMap (applyEventMap (lookupCond tbl) e) S k := by rw [hstep]
      _ = applyListMap (lookupCond tbl) (e :: S) k := rfl

theorem lookupCond_sqliteApplyList (now : Nat) (S : List ChangeEvent) :
    ∀ (tbl : TupleTable) (k : TupleKey5),
      lookupCond (sqliteApplyList now tbl S) k = applyListMap (lookupCond tbl) S k := by
  induction S with
  | nil => intro tbl k; rfl
  | cons e S ih =>
    intro tbl k
    have hstep : lookupCond (applyEventSqlite now tbl e) = applyEventMap (lookupCond tbl) e :=
      funext fun k' => lookupCond_applyEventSqlite now tbl e k'
    calc lookupCond (sqliteApplyList now tbl (e :: S)) k
        = applyListMap (lookupCond (applyEventSqlite now tbl e)) S k := ih _ k
      _ = applyListMap (applyEventMap (lookupCond tbl) e) S k := by rw [hstep]

theorem applyEventMap_eval (m : TupleKey5 → CellVal) (e : ChangeEvent) (k : TupleKey5) :
    applyEventMap m e k = match eventEffect e k with | some v => v | none => m k := by
  rw [applyEventMap, eventEffect]
  by_cases hw : isWriteOp e.operation = true
  · rw [if_pos hw, if_pos hw]
    by_cases hk : k = eventKey e <;> simp [hk]
  · rw [if_neg hw, if_neg hw]
    by_cases hd : isDeleteOp e.operation = true
    · rw [if_pos hd, if_pos hd]
      by_cases hk : k = eventKey e <;> simp [hk]
    · rw [if_neg hd, if_neg hd]

theorem effect_foldl_init (k : TupleKey5) (S : List ChangeEvent) :
    ∀ a : Option CellVal, S.foldl (effectStep k) a =
      match S.foldl (effectStep k) none with | some v => some v | none => a := by
  induction S with
  | nil => intro a; rfl
  | cons e S ih =>
    intro a
    calc (e :: S).foldl (effectStep k) a
        = S.foldl (effectStep k) (effectStep k a e) := rfl
      _ = match S.foldl (effectStep k) none with
          | some v => some v
          | none => effectStep k a e := ih _
    rw [show (e :: S).foldl (effectStep k) none = S.foldl (effectStep k) (effectStep k none e)
      from rfl, ih (effectStep k none e)]
    cases hS : S.foldl (effectStep k) none with
    | some v => rfl
    | none =>
      rw [effectStep, effectStep]
      cases he : eventEffect e k with
      | some v => rfl
      | none => rfl

theorem applyListMap_eval (S : List ChangeEvent) :
    ∀ (m : TupleKey5 → CellVal) (k : TupleKey5),
      applyListMap m S k = match listEffect S k with | some v => v | none => m k := by
  induction S with
  | nil => intro m k; rfl
  | cons e S ih =>
    intro m k
    have h1 : applyListMap m (e :: S) k =
        match listEffect S k with | some v => v | none => applyEventMap m e k :=
      ih (applyEventMap m e) k
    have h2 : listEffect (e :: S) k =
        match listEffect S k with | some v => some v | none => effectStep k none e := by
      rw [show listEffect (e :: S) k = S.foldl (effectStep k) (effectStep k none e) from rfl]
      exact effect_foldl_init k S (effectStep k none e)
    rw [h1, applyEventMap_eval, h2]
    simp only [effectStep]
    cases hS : listEffect S k with
    | some v => rfl
    | none =>
      cases he : eventEffect e k with
      | some v => rfl
      | none => rfl

theorem applyListMap_idem (m : TupleKey5 → CellVal) (S : List ChangeEvent) (k : TupleKey5) :
    applyListMap (applyListMap m S) S k = applyListMap m S k := by
  rw [applyListMap_eval, applyListMap_eval S m k]
  cases hS : listEffect S k with
  | some v => rfl
  | none => rfl

/-- C7: for any sequence `S` of events, applying `S` and then `S` again to a
STATE-mode table (at arbitrary batch clocks) leaves the same logical
tuple-table contents — row presence and stored condition at every key — as
applying `S` once, and the same for the one-call `S ++ S` form; more
generally, for any split `S = P ++ Q`, applying `P` and then `Q` yields the
same contents as applying `P ++ Q` in one call.  Proven for both the
Postgres and the SQLite `ApplyChanges` loops.  The bookkeeping columns
`created_at` / `updated_at` carry the clock of the batch that last wrote a
row and are outside the logical contents view. -/
theorem state_projection_idempotent_and_splittable :
    ∀ (tbl : TupleTable) (S P Q : List ChangeEvent) (t1 t2 t3 : Nat) (k : TupleKey5),
      lookupCond (pgApplyList t2 (pgApplyList t1 tbl S) S) k
          = lookupCond (pgApplyList t3 tbl S) k ∧
      lookupCond (pgApplyList t1 tbl (S ++ S)) k = lookupCond (pgApplyList t3 tbl S) k ∧
      lookupCond (pgApplyList t2 (pgApplyList t1 tbl P) Q) k
          = lookupCond (pgApplyList t3 tbl (P ++ Q)) k ∧
      lookupCond (sqliteApplyList t2 (sqliteApplyList t1 tbl S) S) k
          = lookupCond (sqliteApplyList t3 tbl S) k ∧
      lookupCond (sqliteApplyList t1 tbl (S ++ S)) k = lookupCond (sqliteApplyList t3 tbl S) k ∧
      lookupCond (sqliteApplyList t2 (sqliteApplyList t1 tbl P) Q) k
          = lookupCond (sqliteApplyList t3 tbl (P ++ Q)) k := by
  intro tbl S P Q t1 t2 t3 k
  have hpg : ∀ (t : Nat) (S' : List ChangeEvent) (tb : TupleTable),
      lookupCond (pgApplyList t tb S') = applyListMap (lookupCond tb) S' :=
    fun t S' tb => funext fun k' => lookupCond_pgApplyList t S' tb k'
  have hsq : ∀ (t : Nat) (S' : List ChangeEvent) (tb : TupleTable),
      lookupCond (sqliteApplyList t tb S') = applyListMap (lookupCond tb) S' :=
    fun t S' tb => funext fun k' => lookupCond_sqliteApplyList t S' tb k'
  have happend : ∀ (m : TupleKey5 → CellVal) (P' Q' : List ChangeEvent),
      applyListMap m (P' ++ Q') = applyListMap (applyListMap m P') Q' := by
    intro m P' Q'
    simp only [applyListMap, List.foldl_append]
  refine ⟨?_, ?_, ?_, ?_, ?_, ?_⟩
  · rw [hpg t2, hpg t1, hpg t3]
    exact applyListMap_idem _ S k
  · rw [hpg t1, hpg t3, happend]
    exact applyListMap_idem _ S k
  · rw [hpg t2, hpg t1, hpg t3, happend]
  · rw [hsq t2, hsq t1, hsq t3]
    exact applyListMap_idem _ S k
  · rw [hsq t1, hsq t3, happend]
    exact applyListMap_idem _ S k
  · rw [hsq t2, hsq t1, hsq t3, happend]

theorem filter_eq_self_nil_of_not_mem {α : Type} [DecidableEq α] (l : List α) (a : α)
    (h : a ∉ l) : (l.filter fun x => x = a) = [] := by
  rw [List.filter_eq_nil_iff]
  intro b hb hba
  exact h ((of_decide_eq_true hba) ▸ hb)

theorem length_filter_eq_one_of_nodup {α : Type} [DecidableEq α] (l : List α) (a : α)
    (hnd : l.Nodup) (hmem : a ∈ l) : (l.filter fun x => x = a).length = 1 := by
  induction l with
  | nil => exact absurd hmem (List.not_mem_nil a)
  | cons b l ih =>
    rw [List.nodup_cons] at hnd
    by_cases hb : b = a
    · subst hb
      rw [List.filter_cons_of_pos (by simp),
        filter_eq_self_nil_of_not_mem l b hnd.1]
      rfl
    · have hmem' : a ∈ l := by
        rcases List.mem_cons.mp hmem with h1 | h2
        · exact absurd h1.symm hb
        · exact h2
      rw [List.filter_cons_of_neg (by simpa using hb)]
      exact ih hnd.2 hmem'

theorem lookupRow_some_elim (tbl : TupleTable) (k : TupleKey5) (r : TupleRow)
    (hr : lookupRow tbl k = some r) :
    ∃ q, tbl.find? (fun p => p.1 = k) = some q ∧ q.1 = k ∧ q.2 = r := by
  rw [lookupRow] at hr
  cases hf : tbl.find? (fun p => decide (p.1 = k)) with
  | none =>
    rw [hf] at hr
    exact Option.noConfusion hr
  | some q =>
    rw [hf] at hr
    exact ⟨q, rfl, by simpa using List.find?_some hf, by simpa using hr⟩

theorem hasKey_true_of_lookupRow (tbl : TupleTable) (k : TupleKey5) (r : TupleRow)
    (hr : lookupRow tbl k = some r) : hasKey tbl k = true := by
  obtain ⟨q, hq, hq1, -⟩ := lookupRow_some_elim tbl k r hr
  simp only [hasKey, List.any_eq_true]
  exact ⟨q, List.mem_of_find?_eq_some hq, decide_eq_true hq1⟩

theorem pgUpd_pred_comm (k k' : TupleKey5) (c : Option String) (t : Nat) :
    ∀ p : TupleKey5 × TupleRow,
      (fun p : TupleKey5 × TupleRow => decide (p.1 = k'))
          ((fun p => if p.1 = k then (p.1, (⟨c, p.2.createdAt, t⟩ : TupleRow)) else p) p) =
        decide (p.1 = k') := by
  intro p
  by_cases hp : p.1 = k <;> simp [hp]

theorem lookupRow_pgUpsert_self (tbl : TupleTable) (k : TupleKey5) (c : Option String)
    (t : Nat) (r : TupleRow) (hr : lookupRow tbl k = some r) :
    lookupRow (pgUpsert tbl k c t) k = some ⟨c, r.createdAt, t⟩ := by
  have hk := hasKey_true_of_lookupRow tbl k r hr
  obtain ⟨q, hq, hq1, hq2⟩ := lookupRow_some_elim tbl k r hr
  rw [pgUpsert, if_pos hk, lookupRow,
    find?_map_of_pred_comm _ _ (pgUpd_pred_comm k k c t) tbl, hq]
  simp [hq1, hq2]

theorem keysOf_pgUpsert (tbl : TupleTable) (k : TupleKey5) (c : Option String) (t : Nat)
    (hk : hasKey tbl k = true) :
    keysOf (pgUpsert tbl k c t) = keysOf tbl := by
  rw [pgUpsert, if_pos hk, keysOf, keysOf, List.map_map]
  exact List.map_congr_left fun p _ => by by_cases hp : p.1 = k <;> simp [hp]

theorem rowsFor_pgUpsert_ne (tbl : TupleTable) (k k' : TupleKey5) (c : Option String)
    (t : Nat) (hk : hasKey tbl k = true) (hne : ¬ k' = k) :
    rowsFor (pgUpsert tbl k c t) k' = rowsFor tbl k' := by
  rw [pgUpsert, if_pos hk, rowsFor, rowsFor]
  have hfun : ((fun p : TupleKey5 × TupleRow => decide (p.1 = k')) ∘
      (fun p : TupleKey5 × TupleRow =>
        if p.1 = k then (p.1, (⟨c, p.2.createdAt, t⟩ : TupleRow)) else p)) =
      (fun p : TupleKey5 × TupleRow => decide (p.1 = k')) :=
    funext (pgUpd_pred_comm k k' c t)
  calc (tbl.map fun p =>
          if p.1 = k then (p.1, (⟨c, p.2.createdAt, t⟩ : TupleRow)) else p).filter
            (fun p => decide (p.1 = k'))
      = (tbl.filter fun p => decide (p.1 = k')).map
          (fun p => if p.1 = k then (p.1, (⟨c, p.2.createdAt, t⟩ : TupleRow)) else p) := by
        rw [List.filter_map, hfun]
    _ = (tbl.filter fun p => decide (p.1 = k')).map id := by
        refine List.map_congr_left fun p hp => ?_
        have hpk : p.1 = k' := of_decide_eq_true (List.mem_filter.mp hp).2
        have : ¬ p.1 = k := by rw [hpk]; exact hne
        simp [this]
    _ = tbl.filter fun p => decide (p.1 = k') := List.map_id _

theorem lookupRow_sqliteUpsert_self (tbl : TupleTable) (k : TupleKey5) (c : Option String)
    (t : Nat) (r : TupleRow) (hr : lookupRow tbl k = some r) :
    lookupRow (sqliteUpsert tbl k c t) k = some ⟨c, r.createdAt, t⟩ := by
  obtain ⟨q, hq, hq1, hq2⟩ := lookupRow_some_elim tbl k r hr
  simp only [sqliteUpsert, hq]
  rw [lookupRow, List.find?_append, filtered_find?_self_eq_none tbl k, Option.none_or]
  simp [hq2]

theorem keysOf_sqliteUpsert (tbl : TupleTable) (k : TupleKey5) (c : Option String) (t : Nat) :
    keysOf (sqliteUpsert tbl k c t) =
      (keysOf tbl).filter (fun k0 => ¬ k0 = k) ++ [k] := by
  simp only [sqliteUpsert, keysOf, List.map_append]
  congr 1
  rw [show (fun p : TupleKey5 × TupleRow => decide (¬ p.1 = k)) =
      ((fun k0 : TupleKey5 => decide (¬ k0 = k)) ∘ Prod.fst) from rfl, List.filter_map]

theorem rowsFor_sqliteUpsert_ne (tbl : TupleTable) (k k' : TupleKey5) (c : Option String)
    (t : Nat) (hne : ¬ k' = k) :
    rowsFor (sqliteUpsert tbl k c t) k' = rowsFor tbl k' := by
  simp only [sqliteUpsert, rowsFor, List.filter_append]
  have h2 : [((k, (⟨c, (match tbl.find? (fun p => p.1 = k) with
      | some p => p.2.createdAt
      | none => t), t⟩ : TupleRow)))].filter (fun p => decide (p.1 = k')) = [] := by
    simp only [List.filter_cons, List.filter_nil]
    have : ¬ k = k' := fun hc => hne hc.symm
    simp [this]
  rw [h2, List.append_nil, List.filter_filter]
  refine List.filter_congr fun p hp => ?_
  by_cases hpk : p.1 = k'
  · have hpkk : ¬ p.1 = k := by rw [hpk]; exact hne
    simp [hpk, hpkk, hne]
  · simp [hpk]

theorem countKey_pgUpsert_self (tbl : TupleTable) (k : TupleKey5) (c : Option String)
    (t : Nat) (r : TupleRow) (hnd : (keysOf tbl).Nodup) (hr : lookupRow tbl k = some r) :
    countKey (pgUpsert tbl k c t) k = 1 := by
  rw [countKey, keysOf_pgUpsert tbl k c t (hasKey_true_of_lookupRow tbl k r hr)]
  apply length_filter_eq_one_of_nodup _ _ hnd
  obtain ⟨q, hq, hq1, -⟩ := lookupRow_some_elim tbl k r hr
  exact List.mem_map.mpr ⟨q, List.mem_of_find?_eq_some hq, hq1⟩

theorem countKey_sqliteUpsert_self (tbl : TupleTable) (k : TupleKey5) (c : Option String)
    (t : Nat) : countKey (sqliteUpsert tbl k c t) k = 1 := by
  rw [countKey, keysOf_sqliteUpsert, List.filter_append]
  have h0 : (((keysOf tbl).filter fun k0 => ¬ k0 = k).filter fun k0 => k0 = k) = [] := by
    rw [List.filter_eq_nil_iff]
    intro b hb hba
    exact (of_decide_eq_true (List.mem_filter.mp hb).2) (of_decide_eq_true hba)
  rw [h0]
  simp

theorem keysOf_sqliteUpsert_nodup (tbl : TupleTable) (k : TupleKey5) (c : Option String)
    (t : Nat) (hnd : (keysOf tbl).Nodup) :
    (keysOf (sqliteUpsert tbl k c t)).Nodup := by
  rw [keysOf_sqliteUpsert, List.nodup_append]
  refine ⟨hnd.filter _, List.nodup_singleton k, ?_⟩
  intro a ha hb
  simp only [List.mem_singleton] at hb
  exact (of_decide_eq_true (List.mem_filter.mp ha).2) hb

/-- C8: on both relational STATE sinks, upserting a write event whose
five-field key already holds a row `r` replaces the stored condition,
refreshes `updated_at` to the batch clock, and leaves `created_at` (and the
key columns, and every other row) unchanged; a second write of the same key
still leaves exactly one row for the key, with `created_at` still that of
the original row and `updated_at` refreshed to the second batch clock. -/
theorem state_upsert_preserves_created_at (tbl : TupleTable) (e e2 : ChangeEvent)
    (r : TupleRow) (t t2 : Nat)
    (hw : isWriteOp e.operation = true)
    (hw2 : isWriteOp e2.operation = true)
    (hk2 : eventKey e2 = eventKey e)
    (hnd : (keysOf tbl).Nodup)
    (hr : lookupRow tbl (eventKey e) = some r) :
    lookupRow (applyEventPg t tbl e) (eventKey e) = some ⟨condValue e, r.createdAt, t⟩ ∧
    countKey (applyEventPg t tbl e) (eventKey e) = 1 ∧
    (∀ k', ¬ k' = eventKey e → rowsFor (applyEventPg t tbl e) k' = rowsFor tbl k') ∧
    lookupRow (applyEventSqlite t tbl e) (eventKey e) = some ⟨condValue e, r.createdAt, t⟩ ∧
    countKey (applyEventSqlite t tbl e) (eventKey e) = 1 ∧
    (∀ k', ¬ k' = eventKey e → rowsFor (applyEventSqlite t tbl e) k' = rowsFor tbl k') ∧
    lookupRow (applyEventPg t2 (applyEventPg t tbl e) e2) (eventKey e)
      = some ⟨condValue e2, r.createdAt, t2⟩ ∧
    countKey (applyEventPg t2 (applyEventPg t tbl e) e2) (eventKey e) = 1 ∧
    lookupRow (applyEventSqlite t2 (applyEventSqlite t tbl e) e2) (eventKey e)
      = some ⟨condValue e2, r.createdAt, t2⟩ ∧
    countKey (applyEventSqlite t2 (applyEventSqlite t tbl e) e2) (eventKey e) = 1 := by
  have hpg1 : applyEventPg t tbl e = pgUpsert tbl (eventKey e) (condValue e) t := by
    rw [applyEventPg, if_pos hw]
  have hsq1 : applyEventSqlite t tbl e = sqliteUpsert tbl (eventKey e) (condValue e) t := by
    rw [applyEventSqlite, if_pos hw]
  have hk := hasKey_true_of_lookupRow tbl (eventKey e) r hr
  have hArow : lookupRow (applyEventPg t tbl e) (eventKey e)
      = some ⟨condValue e, r.createdAt, t⟩ := by
    rw [hpg1]
    exact lookupRow_pgUpsert_self tbl (eventKey e) (condValue e) t r hr
  have hAcount : countKey (applyEventPg t tbl e) (eventKey e) = 1 := by
    rw [hpg1]
    exact countKey_pgUpsert_self tbl (eventKey e) (condValue e) t r hnd hr
  have hAnodup : (keysOf (applyEventPg t tbl e)).Nodup := by
    rw [hpg1, keysOf_pgUpsert tbl (eventKey e) (condValue e) t hk]
    exact hnd
  have hBrow : lookupRow (applyEventSqlite t tbl e) (eventKey e)
      = some ⟨condValue e, r.createdAt, t⟩ := by
    rw [hsq1]
    exact lookupRow_sqliteUpsert_self tbl (eventKey e) (condValue e) t r hr
  have hBnodup : (keysOf (applyEventSqlite t tbl e)).Nodup := by
    rw [hsq1]
    exact keysOf_sqliteUpsert_nodup tbl (eventKey e) (condValue e) t hnd
  have hpg2 : applyEventPg t2 (applyEventPg t tbl e) e2
      = pgUpsert (applyEventPg t tbl e) (eventKey e) (condValue e2) t2 := by
    rw [applyEventPg, if_pos hw2, hk2]
  have hsq2 : applyEventSqlite t2 (applyEventSqlite t tbl e) e2
      = sqliteUpsert (applyEventSqlite t tbl e) (eventKey e) (condValue e2) t2 := by
    rw [applyEventSqlite, if_pos hw2, hk2]
  refine ⟨hArow, hAcount, ?_, hBrow, ?_, ?_, ?_, ?_, ?_, ?_⟩
  · intro k' hne
    rw [hpg1]
    exact rowsFor_pgUpsert_ne tbl (eventKey e) k' (condValue e) t hk hne
  · rw [hsq1]
    exact countKey_sqliteUpsert_self tbl (eventKey e) (condValue e) t
  · intro k' hne
    rw [hsq1]
    exact rowsFor_sqliteUpsert_ne tbl (eventKey e) k' (condValue e) t hne
  · rw [hpg2]
    exact lookupRow_pgUpsert_self _ (eventKey e) (condValue e2) t2
      ⟨condValue e, r.createdAt, t⟩ hArow
  · rw [hpg2]
    exact countKey_pgUpsert_self _ (eventKey e) (condValue e2) t2
      ⟨condValue e, r.createdAt, t⟩ hAnodup hArow
  · rw [hsq2]
    exact lookupRow_sqliteUpsert_self _ (eventKey e) (condValue e2) t2
      ⟨condValue e, r.createdAt, t⟩ hBrow
  · rw [hsq2]
    exact countKey_sqliteUpsert_self _ (eventKey e) (condValue e2) t2

theorem chunkGo_flatten {α : Type} (n : Nat) (hn : 0 < n) :
    ∀ (fuel : Nat) (l : List α), l.length ≤ fuel →
      (chunkGo n fuel l).flatMap (fun b => b) = l := by
  intro fuel
  induction fuel with
  | zero =>
    intro l hl
    have hnil : l = [] := List.eq_nil_of_length_eq_zero (Nat.le_zero.mp hl)
    subst hnil
    rfl
  | succ m ih =>
    intro l hl
    match l with
    | [] => rfl
    | x :: xs =>
      rw [chunkGo, if_neg (Nat.pos_iff_ne_zero.mp hn), List.flatMap_cons]
      rw [ih ((x :: xs).drop n) ?_, List.take_append_drop]
      rw [List.length_drop]
      have hn1 : n ≥ 1 := hn
      simp only [List.length_cons] at hl ⊢
      omega

theorem chunkList_flatten {α : Type} (n : Nat) (hn : 0 < n) (l : List α) :
    (chunkList n l).flatMap (fun b => b) = l :=
  chunkGo_flatten n hn l.length l (le_refl _)

theorem isWrite_write_eq (k : FgaTupleKey) : (FgaWriteOp.write k).isWrite = true := rfl

theorem isWrite_del_eq (k : FgaTupleKey) : (FgaWriteOp.del k).isWrite = false := rfl

theorem sourceOps_cons_write (e : ChangeEvent) (S : List ChangeEvent)
    (hw : isWriteOp e.operation = true) :
    sourceOps (e :: S) = FgaWriteOp.write (convertToTupleKey e) :: sourceOps S := by
  rw [sourceOps, List.filterMap_cons]
  simp only [hw, if_true]
  rfl

theorem sourceOps_cons_del (e : ChangeEvent) (S : List ChangeEvent)
    (hw : isWriteOp e.operation = false) (hd : isDeleteOp e.operation = true) :
    sourceOps (e :: S) = FgaWriteOp.del (convertToTupleKey e) :: sourceOps S := by
  rw [sourceOps, List.filterMap_cons]
  simp only [hw, hd, Bool.false_eq_true, if_false, if_true]
  rfl

theorem sourceOps_cons_skip (e : ChangeEvent) (S : List ChangeEvent)
    (hw : isWriteOp e.operation = false) (hd : isDeleteOp e.operation = false) :
    sourceOps (e :: S) = sourceOps S := by
  rw [sourceOps, List.filterMap_cons]
  simp only [hw, hd, Bool.false_eq_true, if_false]
  rfl

theorem filter_isWrite_sourceOps (changes : List ChangeEvent) :
    (sourceOps changes).filter FgaWriteOp.isWrite =
      (changes.filter fun e => isWriteOp e.operation).map
        (fun e => FgaWriteOp.write (convertToTupleKey e)) := by
  induction changes with
  | nil => rfl
  | cons e S ih =>
    by_cases hw : isWriteOp e.operation = true
    · rw [sourceOps_cons_write e S hw]
      simp only [List.filter_cons, isWrite_write_eq, hw, if_true, List.map_cons]
      rw [ih]
    · have hw' : isWriteOp e.operation = false := Bool.eq_false_iff.mpr hw
      by_cases hd : isDeleteOp e.operation = true
      · rw [sourceOps_cons_del e S hw' hd]
        simp only [List.filter_cons, isWrite_del_eq, hw', Bool.false_eq_true, if_false]
        exact ih
      · have hd' : isDeleteOp e.operation = false := Bool.eq_false_iff.mpr hd
        rw [sourceOps_cons_skip e S hw' hd']
        simp only [List.filter_cons, hw', Bool.false_eq_true, if_false]
        exact ih

theorem filter_isDel_sourceOps (changes : List ChangeEvent) :
    (sourceOps changes).filter (fun o => ! o.isWrite) =
      (changes.filter fun e => isDeleteOp e.operation).map
        (fun e => FgaWriteOp.del (convertToTupleKey e)) := by
  induction changes with
  | nil => rfl
  | cons e S ih =>
    by_cases hw : isWriteOp e.operation = true
    · have hd' : isDeleteOp e.operation = false := isDeleteOp_eq_false_of_isWriteOp _ hw
      rw [sourceOps_cons_write e S hw]
      simp only [List.filter_cons, isWrite_write_eq, Bool.not_true, hd',
        Bool.false_eq_true, if_false]
      exact ih
    · have hw' : isWriteOp e.operation = false := Bool.eq_false_iff.mpr hw
      by_cases hd : isDeleteOp e.operation = true
      · rw [sourceOps_cons_del e S hw' hd]
        simp only [List.filter_cons, isWrite_del_eq, Bool.not_false, hd, if_true,
          List.map_cons]
        rw [ih]
      · have hd' : isDeleteOp e.operation = false := Bool.eq_false_iff.mpr hd
        rw [sourceOps_cons_skip e S hw' hd']
        simp only [List.filter_cons, hd', Bool.false_eq_true, if_false]
        exact ih

theorem filter_isWrite_processBatchOps (b : List ChangeEvent) :
    (processBatchOps b).filter FgaWriteOp.isWrite =
      (b.filter fun e => isWriteOp e.operation).map
        (fun e => FgaWriteOp.write (convertToTupleKey e)) := by
  rw [processBatchOps, List.filter_append]
  have h1 : ((b.filter fun e => isWriteOp e.operation).map
      (fun e => FgaWriteOp.write (convertToTupleKey e))).filter FgaWriteOp.isWrite =
        (b.filter fun e => isWriteOp e.operation).map
          (fun e => FgaWriteOp.write (convertToTupleKey e)) := by
    apply List.filter_eq_self.mpr
    intro o ho
    obtain ⟨e, -, rfl⟩ := List.mem_map.mp ho
    rfl
  have h2 : ((b.filter fun e => isDeleteOp e.operation).map
      (fun e => FgaWriteOp.del (convertToTupleKey e))).filter FgaWriteOp.isWrite = [] := by
    rw [List.filter_eq_nil_iff]
    intro o ho
    obtain ⟨e, -, rfl⟩ := List.mem_map.mp ho
    simp [isWrite_del_eq]
  rw [h1, h2, List.append_nil]

theorem filter_isDel_processBatchOps (b : List ChangeEvent) :
    (processBatchOps b).filter (fun o => ! o.isWrite) =
      (b.filter fun e => isDeleteOp e.operation).map
        (fun e => FgaWriteOp.del (convertToTupleKey e)) := by
  rw [processBatchOps, List.filter_append]
  have h1 : ((b.filter fun e => isWriteOp e.operation).map
      (fun e => FgaWriteOp.write (convertToTupleKey e))).filter (fun o => ! o.isWrite) = [] := by
    rw [List.filter_eq_nil_iff]
    intro o ho
    obtain ⟨e, -, rfl⟩ := List.mem_map.mp ho
    simp [isWrite_write_eq]
  have h2 : ((b.filter fun e => isDeleteOp e.operation).map
      (fun e => FgaWriteOp.del (convertToTupleKey e))).filter (fun o => ! o.isWrite) =
        (b.filter fun e => isDeleteOp e.operation).map
          (fun e => FgaWriteOp.del (convertToTupleKey e)) := by
    apply List.filter_eq_self.mpr
    intro o ho
    obtain ⟨e, -, rfl⟩ := List.mem_map.mp ho
    rfl
  rw [h1, h2, List.nil_append]

theorem filter_flatMap_comm {α β : Type} (l : List α) (f : α → List β) (p : β → Bool) :
    (l.flatMap f).filter p = l.flatMap fun a => (f a).filter p := by
  induction l with
  | nil => rfl
  | cons a l ih => simp [List.flatMap_cons, List.filter_append, ih]

theorem flatMap_map_out {α β γ : Type} (l : List α) (f : α → List β) (g : β → γ) :
    (l.flatMap fun a => (f a).map g) = (l.flatMap f).map g := by
  induction l with
  | nil => rfl
  | cons a l ih => simp [List.flatMap_cons, ih]

theorem flatMap_filter_inner {α : Type} (l : List (List α)) (q : α → Bool) :
    (l.flatMap fun b => b.filter q) = (l.flatMap fun b => b).filter q := by
  induction l with
  | nil => rfl
  | cons b l ih => simp [List.flatMap_cons, List.filter_append, ih]

/-- C5 (amended): batch chunking never reorders events (flattening the
chunks restores the original sequence), and the remote sink's write/delete
grouping preserves the relative order of the writes among themselves and of
the deletes among themselves, across all chunks; but within a chunk every
write is submitted before every delete (see the counterexample), so the
order between a delete and a later write of the same chunk is not
preserved.  The relational sinks apply events strictly in source order
(their apply loops are single in-order folds, `pgApplyList` /
`sqliteApplyList`, and the changelog insert loop appends rows in list
order). -/
theorem sink_order_preservation (changes : List ChangeEvent) (n : Nat) (hn : 0 < n) :
    (chunkList n changes).flatMap (fun b => b) = changes ∧
    (fgaSubmittedOps n changes).filter FgaWriteOp.isWrite
      = (sourceOps changes).filter FgaWriteOp.isWrite ∧
    (fgaSubmittedOps n changes).filter (fun o => ! o.isWrite)
      = (sourceOps changes).filter (fun o => ! o.isWrite) := by
  refine ⟨chunkList_flatten n hn changes, ?_, ?_⟩
  · rw [fgaSubmittedOps, filter_flatMap_comm,
      show (fun b => (processBatchOps b).filter FgaWriteOp.isWrite) =
        (fun b : List ChangeEvent => (b.filter fun e => isWriteOp e.operation).map
          (fun e => FgaWriteOp.write (convertToTupleKey e)))
        from funext filter_isWrite_processBatchOps,
      flatMap_map_out, flatMap_filter_inner, chunkList_flatten n hn changes,
      filter_isWrite_sourceOps]
  · rw [fgaSubmittedOps, filter_flatMap_comm,
      show (fun b => (processBatchOps b).filter (fun o => ! o.isWrite)) =
        (fun b : List ChangeEvent => (b.filter fun e => isDeleteOp e.operation).map
          (fun e => FgaWriteOp.del (convertToTupleKey e)))
        from funext filter_isDel_processBatchOps,
      flatMap_map_out, flatMap_filter_inner, chunkList_flatten n hn changes,
      filter_isDel_sourceOps]

/-- C9 (amended): for every non-empty event list, `WriteChanges` on a
STATE-mode sink and `ApplyChanges` on a LOG-mode sink return the
mode-mismatch error with the sink state unchanged, for all three adapter
implementations.  (For the empty list the claim fails: see the
counterexample — the empty-batch check precedes the mode check.) -/
theorem mode_mismatch_rejected (stP : PgState) (stS : SqliteState) (stF : FgaState)
    (changes : List ChangeEvent) (now : Nat)
    (hne : ¬ changes = [])
    (hP : stP.mode = StorageMode.stateful)
    (hS : stS.mode = StorageMode.stateful)
    (hF : stF.mode = StorageMode.stateful) :
    pgWriteChanges stP changes
      = (stP, some "WriteChanges is only supported in changelog mode") ∧
    sqliteWriteChanges stS changes
      = (stS, some "WriteChanges is only supported in changelog mode") ∧
    fgaWriteChanges stF changes
      = (stF, some "WriteChanges is only supported in changelog mode") ∧
    pgApplyChanges (⟨StorageMode.changelog, stP.changelog, stP.tuples, stP.token⟩ : PgState)
        changes now
      = (⟨StorageMode.changelog, stP.changelog, stP.tuples, stP.token⟩,
         some "ApplyChanges is only supported in stateful mode") ∧
    sqliteApplyChanges
        (⟨StorageMode.changelog, stS.changelog, stS.tuples, stS.token⟩ : SqliteState)
        changes now
      = (⟨StorageMode.changelog, stS.changelog, stS.tuples, stS.token⟩,
         some "ApplyChanges is only supported in stateful mode") ∧
    fgaApplyChanges
        (⟨StorageMode.changelog, stF.batchSize, stF.lastToken, stF.submitted⟩ : FgaState)
        changes
      = (⟨StorageMode.changelog, stF.batchSize, stF.lastToken, stF.submitted⟩,
         some "ApplyChanges is only supported in stateful mode") := by
  refine ⟨?_, ?_, ?_, ?_, ?_, ?_⟩
  · rw [pgWriteChanges, if_neg hne,
      if_pos (by rw [hP]; intro h; exact StorageMode.noConfusion h)]
  · rw [sqliteWriteChanges, if_neg hne,
      if_pos (by rw [hS]; intro h; exact StorageMode.noConfusion h)]
  · rw [fgaWriteChanges, if_neg hne,
      if_pos (by rw [hF]; intro h; exact StorageMode.noConfusion h)]
  · rw [pgApplyChanges, if_neg hne, if_pos (by intro h; exact StorageMode.noConfusion h)]
  · rw [sqliteApplyChanges, if_neg hne, if_pos (by intro h; exact StorageMode.noConfusion h)]
  · rw [fgaApplyChanges, if_neg hne, if_pos (by intro h; exact StorageMode.noConfusion h)]

/-- C10: for every adapter and either mode, calling `WriteChanges` or
`ApplyChanges` with the empty event list returns success and performs no
writes: the empty-batch check precedes the mode check, so the mode-mismatch
error is never raised for an empty list, even on a sink of the wrong
mode. -/
theorem empty_batch_no_op (stP : PgState) (stS : SqliteState) (stF : FgaState) (now : Nat) :
    pgWriteChanges stP [] = (stP, none) ∧
    pgApplyChanges stP [] now = (stP, none) ∧
    sqliteWriteChanges stS [] = (stS, none) ∧
    sqliteApplyChanges stS [] now = (stS, none) ∧
    fgaWriteChanges stF [] = (stF, none) ∧
    fgaApplyChanges stF [] = (stF, none) :=
  ⟨rfl, rfl, rfl, rfl, rfl, rfl⟩

theorem dispatched_write_ok (now : Nat) (sk : PgState) (r : FetchResult)
    (hc : ¬ r.changes = []) :
    (if sk.mode = StorageMode.changelog then pgWriteChanges sk r.changes
     else pgApplyChanges sk r.changes now).2 = none ∧
    (if sk.mode = StorageMode.changelog then pgWriteChanges sk r.changes
     else pgApplyChanges sk r.changes now).1.token = sk.token := by
  cases hsm : sk.mode with
  | changelog =>
    rw [if_pos rfl, pgWriteChanges, if_neg hc, if_neg (not_not_intro hsm)]
    exact ⟨rfl, rfl⟩
  | stateful =>
    rw [if_neg (fun h => StorageMode.noConfusion h), pgApplyChanges, if_neg hc,
      if_neg (not_not_intro hsm)]
    exact ⟨rfl, rfl⟩

/-- C2: for every tick — if the tick fails at any step (fetch, the
mode-dispatched sink write, or the token save), both the persisted token
and the in-memory token are unchanged, so the next tick retries from the
same token; if the tick succeeds after fetching a non-empty page with a
non-empty `next_token`, the persisted token and the in-memory token both
equal that `next_token`; and a tick that fetches zero events, or whose
fetch returns an empty `next_token`, never saves a token (both tokens
unchanged).  (The success clause is stated for the saving ticks, exactly
as the claim's zero-events / empty-token carve-out prescribes.) -/
theorem tick_token_discipline (now : Nat) (st : SyncState) (r : FetchResult)
    (writeOk saveOk : Bool) :
    (syncTick now st FetchOutcome.failed writeOk saveOk
      = ⟨st.memToken, st.sink, false⟩) ∧
    ((syncTick now st (FetchOutcome.ok r) writeOk saveOk).ok = false →
      (syncTick now st (FetchOutcome.ok r) writeOk saveOk).sink.token = st.sink.token ∧
      (syncTick now st (FetchOutcome.ok r) writeOk saveOk).memToken = st.memToken) ∧
    (¬ r.changes = [] → ¬ r.continuationToken = "" →
      (syncTick now st (FetchOutcome.ok r) writeOk saveOk).ok = true →
      (syncTick now st (FetchOutcome.ok r) writeOk saveOk).sink.token
        = r.continuationToken ∧
      (syncTick now st (FetchOutcome.ok r) writeOk saveOk).memToken
        = r.continuationToken) ∧
    ((r.changes = [] ∨ r.continuationToken = "") →
      (syncTick now st (FetchOutcome.ok r) writeOk saveOk).sink.token = st.sink.token ∧
      (syncTick now st (FetchOutcome.ok r) writeOk saveOk).memToken = st.memToken) := by
  obtain ⟨hwe, hwtok⟩ : True ∧ True := ⟨trivial, trivial⟩
  by_cases hc : r.changes = []
  · have ht : syncTick now st (FetchOutcome.ok r) writeOk saveOk
        = ⟨st.memToken, st.sink, true⟩ := by
      simp only [syncTick]
      rw [if_pos hc]
    refine ⟨rfl, ?_, ?_, ?_⟩
    · intro hok
      rw [ht] at hok
      exact absurd hok (by simp)
    · intro hne _ _
      exact absurd hc hne
    · intro _
      rw [ht]
      exact ⟨rfl, rfl⟩
  · obtain ⟨herr, htok⟩ := dispatched_write_ok now st.sink r hc
    by_cases hwOk : writeOk = false
    · have ht : syncTick now st (FetchOutcome.ok r) writeOk saveOk
          = ⟨st.memToken, st.sink, false⟩ := by
        simp only [syncTick]
        rw [if_neg hc, if_pos (Or.inl hwOk)]
      refine ⟨rfl, ?_, ?_, ?_⟩
      · intro _
        rw [ht]
        exact ⟨rfl, rfl⟩
      · intro _ _ hok
        rw [ht] at hok
        exact absurd hok (by simp)
      · intro _
        rw [ht]
        exact ⟨rfl, rfl⟩
    · have hwOk' : writeOk = true := by
        cases writeOk with
        | false => exact absurd rfl hwOk
        | true => rfl
      have hcond : ¬ (writeOk = false ∨
          (if st.sink.mode = StorageMode.changelog then pgWriteChanges st.sink r.changes
           else pgApplyChanges st.sink r.changes now).2.isSome = true) := by
        rw [hwOk', herr]
        simp
      by_cases htk : r.continuationToken = ""
      · have ht : syncTick now st (FetchOutcome.ok r) writeOk saveOk
            = ⟨st.memToken,
               (if st.sink.mode = StorageMode.changelog then pgWriteChanges st.sink r.changes
                else pgApplyChanges st.sink r.changes now).1, true⟩ := by
          simp only [syncTick]
          rw [if_neg hc, if_neg hcond, if_neg (not_not_intro htk)]
        refine ⟨rfl, ?_, ?_, ?_⟩
        · intro hok
          rw [ht] at hok
          exact absurd hok (by simp)
        · intro _ hnt _
          exact absurd htk hnt
        · intro _
          rw [ht]
          exact ⟨htok, rfl⟩
      · by_cases hsOk : saveOk = true
        · have ht : syncTick now st (FetchOutcome.ok r) writeOk saveOk
              = ⟨r.continuationToken,
                 pgSaveContinuationToken
                   (if st.sink.mode = StorageMode.changelog
                    then pgWriteChanges st.sink r.changes
                    else pgApplyChanges st.sink r.changes now).1 r.continuationToken,
                 true⟩ := by
            simp only [syncTick]
            rw [if_neg hc, if_neg hcond, if_pos htk, if_pos hsOk]
          refine ⟨rfl, ?_, ?_, ?_⟩
          · intro hok
            rw [ht] at hok
            exact absurd hok (by simp)
          · intro _ _ _
            rw [ht]
            exact ⟨rfl, rfl⟩
          · intro hor
            rcases hor with h1 | h2
            · exact absurd h1 hc
            · exact absurd h2 htk
        · have ht : syncTick now st (FetchOutcome.ok r) writeOk saveOk
              = ⟨st.memToken,
                 (if st.sink.mode = StorageMode.changelog
                  then pgWriteChanges st.sink r.changes
                  else pgApplyChanges st.sink r.changes now).1, false⟩ := by
            simp only [syncTick]
            rw [if_neg hc, if_neg hcond, if_pos htk, if_neg hsOk]
          refine ⟨rfl, ?_, ?_, ?_⟩
          · intro _
            rw [ht]
            exact ⟨htok, rfl⟩
          · intro _ _ hok
            rw [ht] at hok
            exact absurd hok (by simp)
          · intro hor
            rcases hor with h1 | h2
            · exact absurd h1 hc
            · exact absurd h2 htk

/-- C1 (amended): in a LOG-mode tick against the transactional sink, the
batch's rows are committed atomically by `WriteChanges` in one transaction,
and the continuation token is updated by a second, separate statement: the
tick passes through exactly the durable states "nothing yet", "all rows
committed with the old token", "rows committed and token updated" — so
there IS an intermediate durable state with the rows committed but the
token unchanged, and a crash between the two commits makes the restarted
loop re-fetch and duplicate the batch in the log. -/
theorem log_tick_two_transactions (st : PgState) (r : FetchResult)
    (hm : st.mode = StorageMode.changelog)
    (hc : ¬ r.changes = []) (ht : ¬ r.continuationToken = "") :
    logTickDurableStates st r =
      [st,
       ⟨st.mode, st.changelog ++ r.changes.map logRowOf, st.tuples, st.token⟩,
       ⟨st.mode, st.changelog ++ r.changes.map logRowOf, st.tuples,
        r.continuationToken⟩] ∧
    (⟨st.mode, st.changelog ++ r.changes.map logRowOf, st.tuples, st.token⟩ : PgState)
      ∈ logTickDurableStates st r := by
  have hw : pgWriteChanges st r.changes
      = (⟨st.mode, st.changelog ++ r.changes.map logRowOf, st.tuples, st.token⟩, none) := by
    rw [pgWriteChanges, if_neg hc, if_neg (not_not_intro hm)]
  have hlist : logTickDurableStates st r =
      [st,
       ⟨st.mode, st.changelog ++ r.changes.map logRowOf, st.tuples, st.token⟩,
       ⟨st.mode, st.changelog ++ r.changes.map logRowOf, st.tuples,
        r.continuationToken⟩] := by
    rw [logTickDurableStates, if_neg hc, if_pos ht, hw]
    rfl
  refine ⟨hlist, ?_⟩
  rw [hlist]
  exact List.mem_cons_of_mem _ (List.mem_cons_self _ _)

theorem parse_never_fails_length (now : Nat) :
    ∀ records : List WireChange,
      (records.filterMap fun w => (parseChangeEvent now w).toOption).length
        = records.length := by
  intro records
  induction records with
  | nil => rfl
  | cons w l ih =>
    obtain ⟨e, he⟩ : ∃ e, (parseChangeEvent now w).toOption = some e := ⟨_, rfl⟩
    rw [List.filterMap_cons, he]
    simp [ih]

/-- C6 (amended): a wire record missing its `tuple_key` is NOT skipped — it
still becomes an event, with default types (`"user"` / `"object"`), empty
ids, empty relation and empty condition; every record of a page parses
(the parse-error skip branch fires only on JSON marshalling failures,
which cannot occur for the SDK's record shapes), so the page's event count
equals its record count and the page — and its `next_token` — succeed as
usual. -/
theorem malformed_record_still_becomes_event (now : Nat) (records : List WireChange)
    (tok : Option String) (w : WireChange) (hw : w.tupleKey = none) :
    (fetchPage now records tok).changes.length = records.length ∧
    parseChangeEvent now w = Except.ok
      ⟨"object", "", "", "user", "", determineChangeType (w.operation.getD ""),
       w.timestamp.getD now, "", serializeWire w,
       ⟨"", "user", "", "", "", "object", ""⟩, w.operation.getD ""⟩ := by
  constructor
  · exact parse_never_fails_length now records
  · simp [parseChangeEvent, hw, parseUserTypeAndID, parseObjectTypeAndID]

/-! ## Counterexamples and witnesses -/

/-- C1 counterexample: in a LOG-mode tick over one write event with
`next_token = "t1"`, the durable-state trace of `syncChanges` contains the
intermediate state in which the batch's row is committed to `fga_changelog`
while `sync_state.continuation_token` still holds the old value — the
state the claim says cannot exist. -/
theorem log_tick_intermediate_durable_state :
    (⟨StorageMode.changelog, [logRowOf eWr2], [], ""⟩ : PgState)
      ∈ logTickDurableStates stLog0 rOnePage ∧
    (⟨StorageMode.changelog, [logRowOf eWr2], [], ""⟩ : PgState).changelog
      = stLog0.changelog ++ [logRowOf eWr2] ∧
    (⟨StorageMode.changelog, [logRowOf eWr2], [], ""⟩ : PgState).token = stLog0.token ∧
    ¬ (⟨StorageMode.changelog, [logRowOf eWr2], [], ""⟩ : PgState).token
      = rOnePage.continuationToken := by
  refine ⟨by decide, rfl, rfl, by decide⟩

theorem log_tick_two_transactions_witness :
    stLog0.mode = StorageMode.changelog ∧ ¬ rOnePage.changes = [] ∧
    ¬ rOnePage.continuationToken = "" ∧
    (⟨stLog0.mode, stLog0.changelog ++ rOnePage.changes.map logRowOf, stLog0.tuples,
      stLog0.token⟩ : PgState) ∈ logTickDurableStates stLog0 rOnePage :=
  ⟨rfl, by decide, by decide,
   (log_tick_two_transactions stLog0 rOnePage rfl (by decide) (by decide)).2⟩

theorem tick_token_discipline_witness :
    ¬ rOnePage.changes = [] ∧ ¬ rOnePage.continuationToken = "" ∧
    (syncTick 0 stSync0 (FetchOutcome.ok rOnePage) true true).ok = true ∧
    (syncTick 0 stSync0 (FetchOutcome.ok rOnePage) true true).sink.token
      = rOnePage.continuationToken ∧
    (syncTick 0 stSync0 (FetchOutcome.ok rOnePage) true true).memToken
      = rOnePage.continuationToken :=
  ⟨by decide, by decide, by decide,
   ((tick_token_discipline 0 stSync0 rOnePage true true).2.2.1
     (by decide) (by decide) (by decide)).1,
   ((tick_token_discipline 0 stSync0 rOnePage true true).2.2.1
     (by decide) (by decide) (by decide)).2⟩

/-- C5 counterexample: a delete followed by a write in the same batch is
submitted to the remote sink as the write first and the delete second — the
write/delete grouping of `processBatch` reorders this pair, so events are
not applied in source order. -/
theorem write_delete_grouping_reorders :
    fgaSubmittedOps 100 [eDel1, eWr2]
      = [FgaWriteOp.write (convertToTupleKey eWr2),
         FgaWriteOp.del (convertToTupleKey eDel1)] ∧
    sourceOps [eDel1, eWr2]
      = [FgaWriteOp.del (convertToTupleKey eDel1),
         FgaWriteOp.write (convertToTupleKey eWr2)] ∧
    ¬ fgaSubmittedOps 100 [eDel1, eWr2] = sourceOps [eDel1, eWr2] := by
  refine ⟨by decide, by decide, by decide⟩

theorem sink_order_preservation_witness :
    0 < 100 ∧ (chunkList 100 [eDel1, eWr2]).flatMap (fun b => b) = [eDel1, eWr2] :=
  ⟨by decide, (sink_order_preservation [eDel1, eWr2] 100 (by decide)).1⟩

/-- C6 counterexample: a page of three records whose second record has no
`tuple_key` yields three events, not two — the malformed record is not
skipped — and a LOG-mode write of the page commits three rows. -/
theorem page_with_missing_tuple_key_commits_all :
    (fetchPage 0 [wrGood1, wrNoTK, wrGood3] (some "t1")).changes.length = 3 ∧
    ¬ (fetchPage 0 [wrGood1, wrNoTK, wrGood3] (some "t1")).changes.length = 2 ∧
    (pgWriteChanges stLog0
      (fetchPage 0 [wrGood1, wrNoTK, wrGood3] (some "t1")).changes).1.changelog.length = 3 ∧
    (fetchPage 0 [wrGood1, wrNoTK, wrGood3] (some "t1")).continuationToken = "t1" := by
  refine ⟨by decide, by decide, by decide, by decide⟩

theorem malformed_record_witness :
    wrNoTK.tupleKey = none ∧
    (fetchPage 0 [wrNoTK] (some "t1")).changes.length = [wrNoTK].length :=
  ⟨rfl, (malformed_record_still_becomes_event 0 [wrNoTK] (some "t1") wrNoTK rfl).1⟩

theorem state_upsert_witness :
    isWriteOp eC8a.operation = true ∧ isWriteOp eC8b.operation = true ∧
    eventKey eC8b = eventKey eC8a ∧ (keysOf tblC8).Nodup ∧
    lookupRow tblC8 (eventKey eC8a) = some rowC8 ∧
    lookupRow (applyEventPg 7 tblC8 eC8a) (eventKey eC8a)
      = some ⟨condValue eC8a, rowC8.createdAt, 7⟩ :=
  ⟨by decide, by decide, rfl, by decide, by decide,
   (state_upsert_preserves_created_at tblC8 eC8a eC8b rowC8 7 9
     (by decide) (by decide) rfl (by decide) (by decide)).1⟩

/-- C9 counterexample: with the empty event list, `WriteChanges` on a
STATE-mode sink (and `ApplyChanges` on a LOG-mode sink) return success and
no error at all — the claim's "every event list" fails for the empty
list. -/
theorem empty_list_no_mode_error :
    pgWriteChanges stPstate [] = (stPstate, none) ∧
    sqliteApplyChanges ⟨StorageMode.changelog, [], [], ""⟩ [] 0
      = (⟨StorageMode.changelog, [], [], ""⟩, none) ∧
    fgaWriteChanges stFstate [] = (stFstate, none) :=
  ⟨rfl, rfl, rfl⟩

theorem mode_mismatch_witness :
    ¬ [eWr2] = ([] : List ChangeEvent) ∧ stPstate.mode = StorageMode.stateful ∧
    pgWriteChanges stPstate [eWr2]
      = (stPstate, some "WriteChanges is only supported in changelog mode") :=
  ⟨by decide, rfl,
   (mode_mismatch_rejected stPstate stSstate stFstate [eWr2] 0
     (by decide) rfl rfl rfl).1⟩

end OpenFGASync

